import Mathlib

/-!
Shallow embedding of the core of `package_statistics.py` and `strings.py`:
the line parser (`_get_packages` with `find_last_of`), the aggregator
(`_count_filenames_per_package`), the top-K selector (`_find_top_packages`)
and the CLI boundary helper (`process_top_k_argument`).

Python strings are sequences of code points, modelled through `String.data`
(a `List Char`); slicing and splitting are embedded as the corresponding
list operations. Python `dict[str, int]` is modelled as an association list
with distinct keys kept in insertion order, matching Python's dict
iteration order. Exceptions (`ValueError`) are modelled with
`Except String`, carrying the message text. Leading underscores of the
Python method names are dropped.
-/

/-- Equality of `Except` values is decidable componentwise. -/
instance {ε α : Type} [DecidableEq ε] [DecidableEq α] : DecidableEq (Except ε α) :=
  fun x y =>
    match x, y with
    | .error a, .error b =>
      if h : a = b then isTrue (by simp [h]) else isFalse (by simp [h])
    | .error _, .ok _ => isFalse (by simp)
    | .ok _, .error _ => isFalse (by simp)
    | .ok a, .ok b =>
      if h : a = b then isTrue (by simp [h]) else isFalse (by simp [h])

/-- Source constant `ARGUMENT_ALL_PACKAGES`: the command line token that asks
for all packages. -/
def ARGUMENT_ALL_PACKAGES : String := "all"

/-- The index of the first character satisfying `p`, or `none`: embeds the
`next((i for i, ch in enumerate(text) if predicate(ch)), None)` idiom of
`strings.find_last_of`. -/
def firstIdx (p : Char → Bool) : List Char → Option Nat
  | [] => none
  | c :: rest => if p c then some 0 else (firstIdx p rest).map (· + 1)

/-- Embeds `strings.find_last_of`: the index of the last occurrence in `text`
of any character of `pattern`, computed as in the source by reversing the
text, taking the first match in the reversed view and mapping the index back
as `len(text) - index - 1`; `-1` when no character of `pattern` occurs. -/
def find_last_of (text : String) (pattern : String) : Int :=
  match firstIdx (fun c => pattern.data.contains c) text.data.reverse with
  | none => -1
  | some index => (text.data.reverse.length : Int) - index - 1

/-- Python slice `s[n:]` on code points. -/
def strDrop (s : String) (n : Nat) : String := String.mk (s.data.drop n)

/-- Python `s.split(",")`: cuts at every comma, keeping empty pieces; the
empty string yields `[""]`. -/
def splitCommaAux : List Char → List Char → List String
  | [], acc => [String.mk acc.reverse]
  | ',' :: rest, acc => String.mk acc.reverse :: splitCommaAux rest []
  | c :: rest, acc => splitCommaAux rest (c :: acc)

/-- `packages.split(",")` from `_get_packages`. -/
def splitComma (s : String) : List String := splitCommaAux s.data []

/-- Embeds `PackageStatistics._get_packages`: finds the last space or tab of
the line, takes the substring strictly after it and splits it on commas.
When the line has no space and no tab, the source raises
`ValueError("Malformed line in Contents file: ...")`, modelled as
`Except.error` with that message. -/
def get_packages (line : String) : Except String (List String) :=
  let last_space_index := find_last_of line " \t"
  if last_space_index < 0 then
    .error ("Malformed line in Contents file: " ++ line)
  else
    let packages := strDrop line (last_space_index.toNat + 1)
    .ok (splitComma packages)

/-- Embeds Python `str.splitlines` for the line boundaries `\n`, `\r\n` and
`\r` (the rarer Unicode boundary characters Python also accepts do not occur
in Contents files and are not modelled): each boundary terminates a line and
a trailing boundary does not produce a final empty line. -/
def splitlinesAux : List Char → List Char → List String
  | [], [] => []
  | [], acc => [String.mk acc.reverse]
  | '\r' :: '\n' :: rest, acc => String.mk acc.reverse :: splitlinesAux rest []
  | '\n' :: rest, acc => String.mk acc.reverse :: splitlinesAux rest []
  | '\r' :: rest, acc => String.mk acc.reverse :: splitlinesAux rest []
  | c :: rest, acc => splitlinesAux rest (c :: acc)

/-- `contents.splitlines()` on a Lean string. -/
def splitlines (s : String) : List String := splitlinesAux s.data []

/-- Python `dict[str, int]`: association list, distinct keys, insertion
order. -/
abbrev Dict := List (String × Nat)

/-- One increment-or-insert step of the aggregation loop:
`file_count[package] = file_count[package] + 1` when the key exists
(keeping its position, as Python dicts do), otherwise
`file_count[package] = 1`, appending the key at the end. -/
def dictIncr (d : Dict) (package : String) : Dict :=
  match d with
  | [] => [(package, 1)]
  | (k, v) :: rest =>
    if k = package then (k, v + 1) :: rest else (k, v) :: dictIncr rest package

/-- Naive substring containment on code points, used to embed
`line.find("FILE") >= 0`. -/
def containsSub (pat : List Char) : List Char → Bool
  | [] => pat.isEmpty
  | c :: rest => pat.isPrefixOf (c :: rest) || containsSub pat rest

/-- `line.find(pat) >= 0` from the header check of the aggregator. -/
def strContains (line pat : String) : Bool := containsSub pat.data line.data

/-- The enumerated loop of `_count_filenames_per_package`: parses each line,
skips the line at index 0 when it parses to the single token `LOCATION` and
contains `FILE` (the header check runs after the parse, exactly as in the
source), and otherwise increments the count of every package token. -/
def countLines : List String → Nat → Dict → Except String Dict
  | [], _, file_count => .ok file_count
  | line :: rest, i, file_count =>
    match get_packages line with
    | .error e => .error e
    | .ok packages =>
      if i = 0 ∧ packages.length = 1 ∧ packages.headD "" = "LOCATION"
          ∧ strContains line "FILE" = true then
        countLines rest (i + 1) file_count
      else
        countLines rest (i + 1) (packages.foldl dictIncr file_count)

/-- Embeds `PackageStatistics._count_filenames_per_package`: splits the
contents into lines and runs the counting loop on the enumerated lines with
an initially empty dict. -/
def count_filenames_per_package (contents : String) : Except String Dict :=
  countLines (splitlines contents) 0 []

/-- Python `<` on strings: lexicographic comparison of the code point
sequences. -/
def strLt : List Char → List Char → Bool
  | _, [] => false
  | [], _ :: _ => true
  | a :: as, b :: bs =>
    if a.toNat < b.toNat then true
    else if b.toNat < a.toNat then false
    else strLt as bs

/-- Python comparison on the `(-count, package)` heap tuples: lexicographic
on `(int, str)`, the order `heapq` uses. Returns the smaller tuple,
preferring `a` on ties. -/
def tupMin (a b : Int × String) : Int × String :=
  if a.1 < b.1 then a
  else if b.1 < a.1 then b
  else if strLt b.2.data a.2.data then b
  else a

/-- Minimum of the nonempty tuple list `x :: xs`. -/
def listMin (x : Int × String) (xs : List (Int × String)) : Int × String :=
  xs.foldl tupMin x

/-- Removes the first occurrence of `m` from the list: the effect of a
`heappop` returning `m` on the heap's multiset of elements. -/
def eraseTup : List (Int × String) → (Int × String) → List (Int × String)
  | [], _ => []
  | x :: xs, m => if x = m then xs else x :: eraseTup xs m

/-- `k` iterations of the extraction loop of `_find_top_packages`:
`heapq.heappop` removes and returns the minimum tuple of the heap (which is
what `heapify` followed by `heappop`s guarantees, independently of the
heap's internal layout), and the loop breaks when the heap is empty. -/
def popK : Nat → List (Int × String) → List (Int × String)
  | 0, _ => []
  | _ + 1, [] => []
  | n + 1, x :: xs =>
    listMin x xs :: popK n (eraseTup (x :: xs) (listMin x xs))

/-- Embeds `PackageStatistics._find_top_packages`: builds the
`(-count, package)` tuple list from the dict items, replaces a `None`
`top_k` by `len(tuplist)`, pops `top_k` tuples (or all of them, when fewer)
and maps each popped tuple `top` to `(top[1], abs(top[0]))`. -/
def find_top_packages (stats : Dict) (top_k : Option Nat) : List (String × Nat) :=
  let tuplist := stats.map (fun p => (-(p.2 : Int), p.1))
  let k := match top_k with
    | none => tuplist.length
    | some k => k
  (popK k tuplist).map (fun top => (top.2, top.1.natAbs))

/-- Python `int(arg)` digit loop: accumulates decimal digits, `none` on any
non-digit character. -/
def decDigitsAux : List Char → Nat → Option Nat
  | [], acc => some acc
  | c :: cs, acc =>
    if c.isDigit then decDigitsAux cs (10 * acc + (c.toNat - 48)) else none

/-- Python `int(arg)` on a bare command line token: an optional sign followed
by at least one decimal digit (surrounding whitespace, underscore separators
and non-ASCII digits are not modelled); `none` models `ValueError`. -/
def str_to_int (s : String) : Option Int :=
  match s.data with
  | [] => none
  | '-' :: cs =>
    if cs.isEmpty then none else (decDigitsAux cs 0).map (fun n => -(n : Int))
  | '+' :: cs =>
    if cs.isEmpty then none else (decDigitsAux cs 0).map (fun n => (n : Int))
  | cs => (decDigitsAux cs 0).map (fun n => (n : Int))

/-- Embeds `process_top_k_argument`: `"all"` maps to the all sentinel
(`none`); otherwise `int(arg)` is attempted, and a non-numeric token or a
value `<= 0` raises `ValueError` with the source's message. -/
def process_top_k_argument (arg : String) : Except String (Option Int) :=
  if arg = ARGUMENT_ALL_PACKAGES then .ok none
  else
    let error_msg := "top_k argument must be positive or equal to \x27"
      ++ ARGUMENT_ALL_PACKAGES ++ "\x27: " ++ arg
    match str_to_int arg with
    | none => .error error_msg
    | some top_k => if top_k ≤ 0 then .error error_msg else .ok (some top_k)

/-- The aggregation loop with no header exemption: what
`_count_filenames_per_package` does from line index 1 on. -/
def countData : List String → Dict → Except String Dict
  | [], file_count => .ok file_count
  | line :: rest, file_count =>
    match get_packages line with
    | .error e => .error e
    | .ok packages => countData rest (packages.foldl dictIncr file_count)

/-- A line containing no space and no tab: the malformed-line condition. -/
def NoSep (line : String) : Prop := ∀ c ∈ line.data, c ≠ ' ' ∧ c ≠ '\t'

/-- The aggregator's header condition on a line: the line parser yields
exactly the single token `LOCATION` and the raw line contains `FILE`. -/
def DetectedHeader (line : String) : Prop :=
  get_packages line = .ok ["LOCATION"] ∧ strContains line "FILE" = true

instance (line : String) : Decidable (NoSep line) := by
  unfold NoSep
  infer_instance

instance (line : String) : Decidable (DetectedHeader line) := by
  unfold DetectedHeader
  infer_instance

/-- Counts in non-increasing order. -/
def NonIncreasing (l : List Nat) : Prop := l.Chain' (fun a b => b ≤ a)

/-- Python `<=` on `(int, str)` tuples: lexicographic, with the string part
compared through `strLt`. -/
def TupLe (a b : Int × String) : Prop :=
  a.1 < b.1 ∨ (a.1 = b.1 ∧ strLt b.2.data a.2.data = false)

example : find_last_of "/bin/a pkgX,pkgY" " \t" = 6 := by decide
example : find_last_of "nosep" " \t" = -1 := by decide
example : get_packages "/bin/a pkgX,pkgY" = .ok ["pkgX", "pkgY"] := by decide
example : get_packages "a b,c," = .ok ["b", "c", ""] := by decide
example : get_packages "nosep" = .error "Malformed line in Contents file: nosep" := by
  decide
example : splitlines "a b\nc d\n" = ["a b", "c d"] := by decide
example : splitlines "" = [] := by decide
example : count_filenames_per_package "/bin/a pkgX,pkgY\n/bin/b pkgX" =
    .ok [("pkgX", 2), ("pkgY", 1)] := by decide
example : count_filenames_per_package "FILE   LOCATION\n/bin/a pkgX,pkgY" =
    .ok [("pkgX", 1), ("pkgY", 1)] := by decide
example : find_top_packages [("pkgY", 1), ("pkgX", 2)] none =
    [("pkgX", 2), ("pkgY", 1)] := by decide
example : find_top_packages [("a", 1)] (some 0) = [] := by decide
example : find_top_packages [("b", 1), ("a", 1)] none = [("a", 1), ("b", 1)] := by
  decide
example : process_top_k_argument "all" = .ok none := by decide
example : process_top_k_argument "42" = .ok (some 42) := by decide
example : (process_top_k_argument "0").isOk = false := by decide
example : (process_top_k_argument "-3").isOk = false := by decide
example : (process_top_k_argument "ALL").isOk = false := by decide

theorem char_toNat_inj {a b : Char} (h : a.toNat = b.toNat) : a = b :=
  Char.eq_of_val_eq (UInt32.eq_of_toBitVec_eq (BitVec.eq_of_toNat_eq (by
    simpa [Char.toNat, UInt32.toNat] using h)))

theorem char_lt_iff_toNat (a b : Char) : a < b ↔ a.toNat < b.toNat := by
  constructor <;> intro h <;>
    simp_all [Char.lt_def, UInt32.lt_def, Char.toNat, UInt32.toNat, BitVec.lt_def]

theorem strLt_nil_right (as : List Char) : strLt as [] = false := by
  cases as <;> rfl

theorem strLt_cons_cons (a b : Char) (as bs : List Char) :
    strLt (a :: as) (b :: bs) =
      if a.toNat < b.toNat then true
      else if b.toNat < a.toNat then false
      else strLt as bs := rfl

theorem strLt_irrefl : ∀ (as : List Char), strLt as as = false
  | [] => rfl
  | a :: as => by
    rw [strLt_cons_cons]
    simp [strLt_irrefl as]

theorem strLt_asymm : ∀ (as bs : List Char), strLt as bs = true → strLt bs as = false
  | [], [], h => by simp [strLt_nil_right] at h
  | [], _ :: _, _ => strLt_nil_right _
  | _ :: _, [], h => by rw [strLt_nil_right] at h; exact absurd h (by simp)
  | a :: as, b :: bs, h => by
    rw [strLt_cons_cons] at h ⊢
    by_cases hab : a.toNat < b.toNat
    · rw [if_neg (by omega), if_pos hab]
    · by_cases hba : b.toNat < a.toNat
      · rw [if_neg hab, if_pos hba] at h
        exact absurd h (by simp)
      · rw [if_neg hab, if_neg hba] at h
        rw [if_neg hba, if_neg hab]
        exact strLt_asymm as bs h

theorem strLt_false_trans : ∀ (as bs cs : List Char),
    strLt bs as = false → strLt cs bs = false → strLt cs as = false
  | [], _, cs, _, _ => strLt_nil_right cs
  | _ :: _, [], _, h1, _ => by simp [strLt] at h1
  | _ :: _, _ :: _, [], _, h2 => by simp [strLt] at h2
  | a :: as, b :: bs, c :: cs, h1, h2 => by
    rw [strLt_cons_cons] at h1 h2 ⊢
    by_cases hba : b.toNat < a.toNat
    · rw [if_pos hba] at h1
      exact absurd h1 (by simp)
    · by_cases hcb : c.toNat < b.toNat
      · rw [if_pos hcb] at h2
        exact absurd h2 (by simp)
      · rw [if_neg hba] at h1
        rw [if_neg hcb] at h2
        by_cases hca : c.toNat < a.toNat
        · omega
        · rw [if_neg hca]
          by_cases hac : a.toNat < c.toNat
          · rw [if_pos hac]
          · rw [if_neg hac]
            have hab : ¬a.toNat < b.toNat := by omega
            have hbc : ¬b.toNat < c.toNat := by omega
            rw [if_neg hab] at h1
            rw [if_neg hbc] at h2
            exact strLt_false_trans as bs cs h1 h2

theorem strLt_false_antisymm : ∀ (as bs : List Char),
    strLt as bs = false → strLt bs as = false → as = bs
  | [], [], _, _ => rfl
  | [], _ :: _, h1, _ => by simp [strLt] at h1
  | _ :: _, [], _, h2 => by simp [strLt] at h2
  | a :: as, b :: bs, h1, h2 => by
    rw [strLt_cons_cons] at h1 h2
    by_cases hab : a.toNat < b.toNat
    · rw [if_pos hab] at h1
      exact absurd h1 (by simp)
    · by_cases hba : b.toNat < a.toNat
      · rw [if_pos hba] at h2
        exact absurd h2 (by simp)
      · rw [if_neg hab, if_neg hba] at h1
        rw [if_neg hba, if_neg hab] at h2
        have hc : a = b := char_toNat_inj (by omega)
        rw [hc, strLt_false_antisymm as bs h1 h2]

theorem tupLe_refl (a : Int × String) : TupLe a a := Or.inr ⟨rfl, strLt_irrefl _⟩

theorem tupLe_trans {a b c : Int × String} (h1 : TupLe a b) (h2 : TupLe b c) :
    TupLe a c := by
  rcases h1 with h1 | ⟨e1, s1⟩ <;> rcases h2 with h2 | ⟨e2, s2⟩
  · exact Or.inl (lt_trans h1 h2)
  · exact Or.inl (by omega)
  · exact Or.inl (by omega)
  · exact Or.inr ⟨e1.trans e2, strLt_false_trans _ _ _ s1 s2⟩

theorem tupMin_eq_or (a b : Int × String) : tupMin a b = a ∨ tupMin a b = b := by
  unfold tupMin
  split_ifs <;> simp

theorem tupMin_le_left (a b : Int × String) : TupLe (tupMin a b) a := by
  unfold tupMin
  split_ifs with h1 h2 h3
  · exact tupLe_refl a
  · exact Or.inl h2
  · exact Or.inr ⟨by omega, strLt_asymm _ _ h3⟩
  · exact tupLe_refl a

theorem tupMin_le_right (a b : Int × String) : TupLe (tupMin a b) b := by
  unfold tupMin
  split_ifs with h1 h2 h3
  · exact Or.inl h1
  · exact tupLe_refl b
  · exact tupLe_refl b
  · have h3f : strLt b.2.data a.2.data = false := by simpa using h3
    exact Or.inr ⟨by omega, h3f⟩

theorem listMin_mem : ∀ (xs : List (Int × String)) (x : Int × String),
    listMin x xs ∈ x :: xs
  | [], x => List.mem_singleton_self x
  | b :: bs, x => by
    unfold listMin
    simp only [List.foldl_cons]
    have h : listMin (tupMin x b) bs ∈ (tupMin x b) :: bs := listMin_mem bs (tupMin x b)
    unfold listMin at h
    rcases List.mem_cons.mp h with he | hm
    · rcases tupMin_eq_or x b with h2 | h2
      · rw [he, h2]
        exact List.mem_cons_self _ _
      · rw [he, h2]
        exact List.mem_cons_of_mem _ (List.mem_cons_self _ _)
    · exact List.mem_cons_of_mem _ (List.mem_cons_of_mem _ hm)

theorem listMin_le : ∀ (xs : List (Int × String)) (x y : Int × String),
    y ∈ x :: xs → TupLe (listMin x xs) y
  | [], x, y, hy => by
    unfold listMin
    simp only [List.foldl_nil]
    rcases List.mem_cons.mp hy with h | h
    · rw [h]
      exact tupLe_refl x
    · exact absurd h (List.not_mem_nil y)
  | b :: bs, x, y, hy => by
    unfold listMin
    simp only [List.foldl_cons]
    have IH : ∀ z, z ∈ (tupMin x b) :: bs → TupLe (listMin (tupMin x b) bs) z :=
      fun z hz => listMin_le bs (tupMin x b) z hz
    unfold listMin at IH
    rcases List.mem_cons.mp hy with h | h
    · rw [h]
      exact tupLe_trans (IH _ (List.mem_cons_self _ _)) (tupMin_le_left x b)
    · rcases List.mem_cons.mp h with h2 | h2
      · rw [h2]
        exact tupLe_trans (IH _ (List.mem_cons_self _ _)) (tupMin_le_right x b)
      · exact IH y (List.mem_cons_of_mem _ h2)

theorem eraseTup_length_of_mem : ∀ (l : List (Int × String)) (m : Int × String),
    m ∈ l → (eraseTup l m).length + 1 = l.length
  | [], m, h => absurd h (List.not_mem_nil m)
  | x :: xs, m, h => by
    unfold eraseTup
    by_cases hx : x = m
    · rw [if_pos hx]
      rfl
    · rw [if_neg hx]
      have hm : m ∈ xs := by
        rcases List.mem_cons.mp h with h2 | h2
        · exact absurd h2.symm hx
        · exact h2
      simp only [List.length_cons]
      rw [eraseTup_length_of_mem xs m hm]

theorem eraseTup_subset : ∀ (l : List (Int × String)) (m y : Int × String),
    y ∈ eraseTup l m → y ∈ l
  | [], m, y, h => absurd h (List.not_mem_nil y)
  | x :: xs, m, y, h => by
    unfold eraseTup at h
    by_cases hx : x = m
    · rw [if_pos hx] at h
      exact List.mem_cons_of_mem _ h
    · rw [if_neg hx] at h
      rcases List.mem_cons.mp h with h2 | h2
      · rw [h2]
        exact List.mem_cons_self _ _
      · exact List.mem_cons_of_mem _ (eraseTup_subset xs m y h2)

theorem perm_cons_eraseTup : ∀ (l : List (Int × String)) (m : Int × String),
    m ∈ l → l.Perm (m :: eraseTup l m)
  | [], m, h => absurd h (List.not_mem_nil m)
  | x :: xs, m, h => by
    unfold eraseTup
    by_cases hx : x = m
    · rw [if_pos hx, hx]
    · rw [if_neg hx]
      have hm : m ∈ xs := by
        rcases List.mem_cons.mp h with h2 | h2
        · exact absurd h2.symm hx
        · exact h2
      have IH := perm_cons_eraseTup xs m hm
      exact (IH.cons x).trans (List.Perm.swap m x (eraseTup xs m))

theorem popK_nil : ∀ (n : Nat), popK n [] = []
  | 0 => rfl
  | _ + 1 => rfl

theorem popK_subset : ∀ (n : Nat) (l : List (Int × String)) (y : Int × String),
    y ∈ popK n l → y ∈ l
  | 0, l, y, h => by simp [popK] at h
  | _ + 1, [], y, h => by simp [popK] at h
  | n + 1, x :: xs, y, h => by
    rw [popK] at h
    rcases List.mem_cons.mp h with h2 | h2
    · rw [h2]
      exact listMin_mem xs x
    · exact eraseTup_subset _ _ y (popK_subset n _ y h2)

theorem popK_length : ∀ (n : Nat) (l : List (Int × String)),
    (popK n l).length = min n l.length
  | 0, l => by simp [popK]
  | _ + 1, [] => by simp [popK]
  | n + 1, x :: xs => by
    rw [popK]
    simp only [List.length_cons]
    rw [popK_length n _]
    have he := eraseTup_length_of_mem (x :: xs) (listMin x xs) (listMin_mem xs x)
    simp only [List.length_cons] at he
    omega

theorem popK_perm : ∀ (n : Nat) (l : List (Int × String)),
    l.length ≤ n → (popK n l).Perm l
  | 0, l, h => by
    have hl : l = [] := List.length_eq_zero.mp (Nat.le_zero.mp h)
    rw [hl]
    simp [popK]
  | _ + 1, [], _ => by simp [popK]
  | n + 1, x :: xs, h => by
    rw [popK]
    have hm := listMin_mem xs x
    have he := eraseTup_length_of_mem (x :: xs) (listMin x xs) hm
    simp only [List.length_cons] at he h
    have IH := popK_perm n (eraseTup (x :: xs) (listMin x xs)) (by omega)
    exact (IH.cons _).trans (perm_cons_eraseTup _ _ hm).symm

theorem popK_eq_of_le : ∀ (n m : Nat) (l : List (Int × String)),
    l.length ≤ n → l.length ≤ m → popK n l = popK m l
  | 0, m, l, h, _ => by
    have hl : l = [] := List.length_eq_zero.mp (Nat.le_zero.mp h)
    rw [hl, popK_nil, popK_nil]
  | _ + 1, _, [], _, _ => by rw [popK_nil, popK_nil]
  | _ + 1, 0, x :: xs, _, h2 => by simp at h2
  | n + 1, m + 1, x :: xs, h, h2 => by
    rw [popK, popK]
    congr 1
    have he := eraseTup_length_of_mem (x :: xs) (listMin x xs) (listMin_mem xs x)
    simp only [List.length_cons] at he h h2
    exact popK_eq_of_le n m _ (by omega) (by omega)

theorem popK_pairwise : ∀ (n : Nat) (l : List (Int × String)),
    (popK n l).Pairwise TupLe
  | 0, l => by simp [popK]
  | _ + 1, [] => by simp [popK]
  | n + 1, x :: xs => by
    rw [popK]
    refine List.Pairwise.cons ?_ (popK_pairwise n _)
    intro y hy
    exact listMin_le xs x y (eraseTup_subset _ _ y (popK_subset n _ y hy))

theorem firstIdx_eq_none_iff (p : Char → Bool) : ∀ (l : List Char),
    firstIdx p l = none ↔ ∀ c ∈ l, p c = false
  | [] => by simp [firstIdx]
  | c :: rest => by
    by_cases h : p c
    · simp [firstIdx, h]
    · simp only [firstIdx, if_neg h, Option.map_eq_none']
      rw [firstIdx_eq_none_iff p rest]
      simp only [Bool.not_eq_true] at h
      simp [h]

theorem firstIdx_lt_length (p : Char → Bool) : ∀ (l : List Char) (i : Nat),
    firstIdx p l = some i → i < l.length
  | [], i, h => by simp [firstIdx] at h
  | c :: rest, i, h => by
    by_cases hc : p c
    · simp only [firstIdx, if_pos hc, Option.some.injEq] at h
      simp only [List.length_cons]
      omega
    · simp only [firstIdx, if_neg hc, Option.map_eq_some'] at h
      obtain ⟨j, hj, hji⟩ := h
      have := firstIdx_lt_length p rest j hj
      simp only [List.length_cons]
      omega

theorem firstIdx_append (p : Char → Bool) : ∀ (l1 : List Char) (c : Char)
    (l2 : List Char), (∀ x ∈ l1, p x = false) → p c = true →
    firstIdx p (l1 ++ c :: l2) = some l1.length
  | [], c, l2, _, hc => by simp [firstIdx, hc]
  | x :: l1, c, l2, h, hc => by
    have hx : p x = false := h x (List.mem_cons_self _ _)
    have IH := firstIdx_append p l1 c l2 (fun y hy => h y (List.mem_cons_of_mem _ hy)) hc
    simp only [List.cons_append, firstIdx, hx, Bool.false_eq_true, if_false,
      List.append_eq, IH, Option.map_some', List.length_cons]

theorem contains_sep_false_iff (c : Char) :
    (" \t").data.contains c = false ↔ c ≠ ' ' ∧ c ≠ '\t' := by
  have hd : (" \t").data = [' ', '\t'] := rfl
  rw [hd]
  simp [List.contains_cons]

theorem find_last_of_neg_iff (line : String) :
    find_last_of line " \t" < 0 ↔ NoSep line := by
  unfold find_last_of
  cases hf : firstIdx (fun c => (" \t").data.contains c) line.data.reverse with
  | none =>
    simp only [hf]
    constructor
    · intro _
      intro c hc
      have hall := (firstIdx_eq_none_iff _ _).mp hf
      have := hall c (List.mem_reverse.mpr hc)
      exact (contains_sep_false_iff c).mp this
    · intro _
      decide
  | some i =>
    have hi := firstIdx_lt_length _ _ _ hf
    simp only [List.length_reverse] at hi
    simp only [hf, List.length_reverse]
    constructor
    · intro h
      exfalso
      omega
    · intro hns
      exfalso
      have : firstIdx (fun c => (" \t").data.contains c) line.data.reverse = none := by
        rw [firstIdx_eq_none_iff]
        intro c hc
        exact (contains_sep_false_iff c).mpr (hns c (List.mem_reverse.mp hc))
      rw [this] at hf
      exact Option.noConfusion hf

theorem get_packages_error_iff (line : String) :
    (∃ e, get_packages line = .error e) ↔ NoSep line := by
  unfold get_packages
  by_cases h : find_last_of line " \t" < 0
  · simp only [if_pos h]
    constructor
    · intro _
      exact (find_last_of_neg_iff line).mp h
    · intro _
      exact ⟨_, rfl⟩
  · simp only [if_neg h]
    constructor
    · intro ⟨e, he⟩
      exact Except.noConfusion he
    · intro hns
      exact absurd ((find_last_of_neg_iff line).mpr hns) h

theorem get_packages_ok_not_nosep {line : String} {packages : List String}
    (h : get_packages line = .ok packages) : ¬NoSep line := by
  intro hns
  obtain ⟨e, he⟩ := (get_packages_error_iff line).mpr hns
  rw [he] at h
  exact Except.noConfusion h

theorem nosep_not_header {line : String} (hns : NoSep line) : ¬DetectedHeader line := by
  intro ⟨hok, _⟩
  exact get_packages_ok_not_nosep hok hns

theorem find_last_of_decomp (line : String) (pre suf : List Char) (c : Char)
    (hline : line.data = pre ++ c :: suf)
    (hc : (" \t").data.contains c = true)
    (hsuf : ∀ d ∈ suf, (" \t").data.contains d = false) :
    find_last_of line " \t" = (pre.length : Int) := by
  unfold find_last_of
  have hrev : line.data.reverse = suf.reverse ++ c :: pre.reverse := by
    rw [hline]
    simp
  rw [hrev, firstIdx_append _ _ _ _ (fun x hx => hsuf x (List.mem_reverse.mp hx)) hc]
  show ((suf.reverse ++ c :: pre.reverse).length : Int) - (suf.reverse.length : Int) - 1
      = (pre.length : Int)
  simp only [List.length_append, List.length_reverse, List.length_cons]
  push_cast
  ring

theorem exists_mem_cons_nosep {line : String} {rest : List String} (h : ¬NoSep line) :
    (∃ l ∈ line :: rest, NoSep l) ↔ ∃ l ∈ rest, NoSep l := by
  constructor
  · intro ⟨l, hl, hns⟩
    rcases List.mem_cons.mp hl with h2 | h2
    · exact absurd (h2 ▸ hns) h
    · exact ⟨l, h2, hns⟩
  · intro ⟨l, hl, hns⟩
    exact ⟨l, List.mem_cons_of_mem _ hl, hns⟩

theorem countLines_error_iff : ∀ (lines : List String) (i : Nat) (fc : Dict),
    (∃ e, countLines lines i fc = .error e) ↔ ∃ line ∈ lines, NoSep line
  | [], _, _ => by
    simp only [countLines]
    constructor
    · intro ⟨e, he⟩
      exact Except.noConfusion he
    · intro ⟨line, hl, _⟩
      exact absurd hl (List.not_mem_nil line)
  | line :: rest, i, fc => by
    cases hgp : get_packages line with
    | error e =>
      simp only [countLines, hgp]
      constructor
      · intro _
        exact ⟨line, List.mem_cons_self _ _, (get_packages_error_iff line).mp ⟨e, hgp⟩⟩
      · intro _
        exact ⟨e, rfl⟩
    | ok packages =>
      have hnotns : ¬NoSep line := get_packages_ok_not_nosep hgp
      simp only [countLines, hgp]
      rw [exists_mem_cons_nosep hnotns]
      by_cases hcond : i = 0 ∧ packages.length = 1 ∧ packages.headD "" = "LOCATION"
          ∧ strContains line "FILE" = true
      · rw [if_pos hcond]
        exact countLines_error_iff rest (i + 1) fc
      · rw [if_neg hcond]
        exact countLines_error_iff rest (i + 1) (packages.foldl dictIncr fc)

theorem countLines_pos_eq_countData : ∀ (lines : List String) (i : Nat) (fc : Dict),
    countLines lines (i + 1) fc = countData lines fc
  | [], _, _ => rfl
  | line :: rest, i, fc => by
    cases hgp : get_packages line with
    | error e => simp only [countLines, countData, hgp]
    | ok packages =>
      simp only [countLines, countData, hgp]
      rw [if_neg (fun hcond => Nat.succ_ne_zero i hcond.1)]
      exact countLines_pos_eq_countData rest (i + 1) (packages.foldl dictIncr fc)

/-- Claim C2: the aggregator `_count_filenames_per_package` fails with
`MalformedLineError` (the `ValueError` raised by the line parser) if and only
if some line of the text, other than a first line detected as the header,
contains no space and no tab character; failure is global (`Except.error`
carries no partial mapping), so there is no silent per-line skipping. -/
theorem count_error_iff_malformed (contents : String) :
    (∃ e, count_filenames_per_package contents = .error e) ↔
    ∃ i, ∃ h : i < (splitlines contents).length,
      NoSep ((splitlines contents).get ⟨i, h⟩) ∧
      ¬(i = 0 ∧ DetectedHeader ((splitlines contents).get ⟨i, h⟩)) := by
  unfold count_filenames_per_package
  rw [countLines_error_iff]
  constructor
  · intro ⟨line, hl, hns⟩
    obtain ⟨⟨i, hi⟩, hget⟩ := List.mem_iff_get.mp hl
    refine ⟨i, hi, ?_, ?_⟩
    · rw [hget]
      exact hns
    · intro ⟨_, hdr⟩
      exact nosep_not_header (hget ▸ hns) hdr
  · intro ⟨i, hi, hns, _⟩
    exact ⟨_, List.get_mem _ _ _, hns⟩

/-- Claim C4: when the first line parses to the single token `LOCATION` and
the raw line contains `FILE`, the aggregator skips it entirely: the result
is exactly the aggregation of the remaining lines from an empty dict, so the
header contributes no increment to any count. -/
theorem header_line_skipped (contents l0 : String) (rest : List String)
    (hsplit : splitlines contents = l0 :: rest) (hdr : DetectedHeader l0) :
    count_filenames_per_package contents = countData rest [] := by
  unfold count_filenames_per_package
  rw [hsplit]
  obtain ⟨hok, hfile⟩ := hdr
  simp only [countLines, hok]
  split
  · exact countLines_pos_eq_countData rest 0 []
  · rename_i hcond
    simp [hfile] at hcond

/-- Claim C10: the aggregator on the empty string returns the empty mapping
without error, because `splitlines` of the empty text yields no lines at
all; an empty line inside a non-empty text, in contrast, makes the whole
aggregation fail, because it contains no space and no tab. -/
theorem count_empty_text :
    count_filenames_per_package "" = .ok [] ∧
    splitlines "" = [] ∧
    (∃ e, count_filenames_per_package "/bin/a pkgX\n\n/bin/b pkgY" = .error e) := by
  refine ⟨rfl, rfl, ?_⟩
  exact ⟨"Malformed line in Contents file: ", by decide⟩

/-- Claim C3: for every line containing at least one space or tab, the line
parser returns exactly the substring strictly after the last space-or-tab
character, split on commas, with no trimming and with empty tokens
preserved. The largest separator index is presented through the
decomposition `line = pre ++ c :: suf` with `c` a separator and no separator
occurring in `suf`, so that index is `pre.length`. -/
theorem get_packages_last_sep (line : String) (pre suf : List Char) (c : Char)
    (hline : line.data = pre ++ c :: suf)
    (hc : c = ' ' ∨ c = '\t')
    (hsuf : ∀ d ∈ suf, d ≠ ' ' ∧ d ≠ '\t') :
    find_last_of line " \t" = (pre.length : Int) ∧
    get_packages line = .ok (splitComma (strDrop line (pre.length + 1))) := by
  have hcc : (" \t").data.contains c = true := by
    rcases hc with h | h <;> rw [h] <;> rfl
  have hsufc : ∀ d ∈ suf, (" \t").data.contains d = false :=
    fun d hd => (contains_sep_false_iff d).mpr (hsuf d hd)
  have hf := find_last_of_decomp line pre suf c hline hcc hsufc
  refine ⟨hf, ?_⟩
  unfold get_packages
  rw [hf]
  rw [if_neg (by omega)]
  rw [Int.toNat_natCast]

theorem strLt_iff_lex : ∀ (as bs : List Char),
    strLt as bs = true ↔ List.Lex (· < ·) as bs
  | as, [] => by
    rw [strLt_nil_right]
    constructor
    · intro h
      exact absurd h (by simp)
    · intro h
      exact absurd h (List.Lex.not_nil_right _ _)
  | [], _ :: _ => by
    constructor
    · intro _
      exact List.Lex.nil
    · intro _
      rfl
  | a :: as, b :: bs => by
    rw [strLt_cons_cons]
    by_cases hab : a.toNat < b.toNat
    · rw [if_pos hab]
      constructor
      · intro _
        exact List.Lex.rel ((char_lt_iff_toNat a b).mpr hab)
      · intro _
        rfl
    · by_cases hba : b.toNat < a.toNat
      · rw [if_neg hab, if_pos hba]
        constructor
        · intro h
          exact absurd h (by simp)
        · intro h
          cases h with
          | cons h2 => omega
          | rel h2 => exact absurd ((char_lt_iff_toNat a b).mp h2) hab
      · have heq : a = b := char_toNat_inj (by omega)
        subst heq
        rw [if_neg hab, if_neg hba, strLt_iff_lex as bs]
        exact List.Lex.cons_iff.symm

theorem strLt_false_iff_le (a b : String) : strLt b.data a.data = false ↔ a ≤ b := by
  rw [String.le_iff_toList_le, ← not_lt]
  constructor
  · intro h hlt
    have hx : List.Lex (· < ·) b.data a.data := hlt
    rw [← strLt_iff_lex, h] at hx
    exact Bool.noConfusion hx
  · intro h
    by_contra hc
    have hx : strLt b.data a.data = true := by
      cases hb : strLt b.data a.data
      · exact absurd hb hc
      · rfl
    exact h ((strLt_iff_lex _ _).mp hx)

theorem tuplist_mem_form {stats : Dict} {t : Int × String}
    (h : t ∈ stats.map (fun p => (-(p.2 : Int), p.1))) :
    ∃ p, p ∈ stats ∧ t = (-(p.2 : Int), p.1) := by
  rcases List.mem_map.mp h with ⟨p, hp, he⟩
  exact ⟨p, hp, he.symm⟩

theorem find_top_packages_pairwise (stats : Dict) (top_k : Option Nat) :
    (find_top_packages stats top_k).Pairwise
      (fun a b => b.2 ≤ a.2 ∧ (a.2 = b.2 → a.1 ≤ b.1)) := by
  simp only [find_top_packages]
  rw [List.pairwise_map]
  refine List.Pairwise.imp_of_mem ?_ (popK_pairwise _ _)
  intro s t hs ht hst
  obtain ⟨p, hp, rfl⟩ := tuplist_mem_form (popK_subset _ _ _ hs)
  obtain ⟨q, hq, rfl⟩ := tuplist_mem_form (popK_subset _ _ _ ht)
  constructor
  · simp only [Int.natAbs_neg, Int.natAbs_ofNat]
    rcases hst with h | ⟨h, _⟩ <;> omega
  · intro hcnt
    simp only [Int.natAbs_neg, Int.natAbs_ofNat] at hcnt
    rcases hst with h | ⟨_, hname⟩
    · omega
    · exact (strLt_false_iff_le _ _).mp hname

/-- Claim C1: for every non-empty mapping with distinct keys, the selector
with the `None` sentinel returns exactly `len(m)` pairs, a permutation of
the mapping's entries (each key exactly once, paired with its count), with
counts in non-increasing order. -/
theorem find_top_packages_all_spec (stats : Dict) (hne : stats ≠ [])
    (hkeys : (stats.map Prod.fst).Nodup) :
    (find_top_packages stats none).length = stats.length ∧
    (find_top_packages stats none).Perm stats ∧
    NonIncreasing ((find_top_packages stats none).map Prod.snd) := by
  refine ⟨?_, ?_, ?_⟩
  · simp only [find_top_packages]
    rw [List.length_map, popK_length]
    simp [List.length_map]
  · simp only [find_top_packages]
    have hperm := (popK_perm (stats.map (fun p => (-(p.2 : Int), p.1))).length
      (stats.map (fun p => (-(p.2 : Int), p.1))) (le_refl _)).map
      (fun top : Int × String => (top.2, top.1.natAbs))
    refine hperm.trans ?_
    rw [List.map_map]
    have hco : ((fun top : Int × String => (top.2, top.1.natAbs)) ∘
        (fun p : String × Nat => (-(p.2 : Int), p.1))) = id := by
      funext p
      simp [Int.natAbs_neg]
    rw [hco, List.map_id]
  · have hpw := (find_top_packages_pairwise stats none).imp
      (fun h => h.1)
    unfold NonIncreasing
    rw [List.chain'_map]
    exact List.Pairwise.chain' hpw

theorem find_top_packages_all_spec_witness :
    ([("pkgY", 1), ("pkgX", 2)] : Dict) ≠ [] ∧
    (find_top_packages [("pkgY", 1), ("pkgX", 2)] none).length = 2 ∧
    (find_top_packages [("pkgY", 1), ("pkgX", 2)] none).Perm
      [("pkgY", 1), ("pkgX", 2)] ∧
    NonIncreasing ((find_top_packages [("pkgY", 1), ("pkgX", 2)] none).map
      Prod.snd) := by
  have h := find_top_packages_all_spec [("pkgY", 1), ("pkgX", 2)] (by decide)
    (by decide)
  exact ⟨by decide, h.1, h.2.1, h.2.2⟩

theorem count_error_iff_malformed_witness :
    ∃ e, count_filenames_per_package "/bin/a pkgX\nnosep" = .error e :=
  (count_error_iff_malformed "/bin/a pkgX\nnosep").mpr
    ⟨1, by decide, by decide, by decide⟩

theorem get_packages_last_sep_witness :
    get_packages "/bin/a pkgX,pkgY" = .ok ["pkgX", "pkgY"] ∧
    find_last_of "/bin/a pkgX,pkgY" " \t" = 6 := by
  have h := get_packages_last_sep "/bin/a pkgX,pkgY" ("/bin/a").data
    ("pkgX,pkgY").data ' ' (by decide) (Or.inl rfl) (by decide)
  exact ⟨h.2.trans (by decide), h.1.trans (by decide)⟩

theorem header_line_skipped_witness :
    count_filenames_per_package "FILE   LOCATION\n/bin/a pkgX,pkgY"
      = countData ["/bin/a pkgX,pkgY"] [] ∧
    count_filenames_per_package "FILE   LOCATION\n/bin/a pkgX,pkgY"
      = .ok [("pkgX", 1), ("pkgY", 1)] ∧
    ∀ p ∈ [(("pkgX" : String), (1 : Nat)), ("pkgY", 1)], p.1 ≠ "LOCATION" := by
  refine ⟨?_, by decide, by decide⟩
  exact header_line_skipped "FILE   LOCATION\n/bin/a pkgX,pkgY"
    "FILE   LOCATION" ["/bin/a pkgX,pkgY"] (by decide) ⟨by decide, by decide⟩

/-- Claim C5 counterexample: for the non-empty mapping `{"pkgX": 2}` the
selector with `K = 0` returns the empty sequence, not the full result the
claim asserts: the entry `("pkgX", 2)` is absent. -/
theorem find_top_packages_zero_counterexample :
    find_top_packages [("pkgX", 2)] (some 0) = [] ∧
    ("pkgX", 2) ∉ find_top_packages [("pkgX", 2)] (some 0) := by
  decide

/-- Claim C5 (amended): the selector's result for `K = 0` is the empty
sequence — the extraction loop `range(0, 0)` runs zero times; only the
`None` sentinel (and `K ≥ len`) yields the full result. -/
theorem find_top_packages_zero (stats : Dict) :
    find_top_packages stats (some 0) = [] := rfl

/-- Claim C6 counterexample: the token `"0"` is rejected by
`process_top_k_argument` with a `ValueError` (`int("0") <= 0`), rather than
being mapped to the "all" sentinel `None` as the claim asserts. -/
theorem process_top_k_argument_zero_counterexample :
    process_top_k_argument "0" =
      .error "top_k argument must be positive or equal to \x27all\x27: 0" ∧
    process_top_k_argument "0" ≠ .ok none := by
  decide

/-- Claim C6 (amended): `process_top_k_argument` maps only the literal token
`"all"` to the all sentinel `None`; it returns the integer value for every
token denoting a positive integer; and it raises `ValueError` exactly when
the token is non-numeric and not `"all"`, or denotes a nonpositive integer —
in particular the literal `"0"` is rejected, not given "all" semantics. -/
theorem process_top_k_argument_spec (arg : String) :
    (process_top_k_argument arg = .ok none ↔ arg = "all") ∧
    (∀ k : Int, str_to_int arg = some k → 0 < k →
        process_top_k_argument arg = .ok (some k)) ∧
    ((∃ e, process_top_k_argument arg = .error e) ↔
      arg ≠ "all" ∧
        (str_to_int arg = none ∨ ∃ k, str_to_int arg = some k ∧ k ≤ 0)) := by
  by_cases hall : arg = "all"
  · subst hall
    refine ⟨by simp [process_top_k_argument, ARGUMENT_ALL_PACKAGES], ?_, ?_⟩
    · intro k hk _
      have hn : str_to_int "all" = none := rfl
      rw [hn] at hk
      exact Option.noConfusion hk
    · constructor
      · intro ⟨e, he⟩
        have hv : process_top_k_argument "all" = .ok none := rfl
        rw [hv] at he
        exact Except.noConfusion he
      · intro ⟨h, _⟩
        exact absurd rfl h
  · have hne : ¬(arg = ARGUMENT_ALL_PACKAGES) := hall
    refine ⟨?_, ?_, ?_⟩
    · simp only [process_top_k_argument, if_neg hne]
      cases hs : str_to_int arg with
      | none => simp [hall]
      | some k =>
        by_cases hk : k ≤ 0
        · simp [hk, hall]
        · simp [hk, hall]
    · intro k hk hpos
      simp only [process_top_k_argument, if_neg hne, hk]
      rw [if_neg (by omega)]
    · simp only [process_top_k_argument, if_neg hne]
      cases hs : str_to_int arg with
      | none => simp [hall]
      | some k =>
        by_cases hk : k ≤ 0
        · simp [hall, hk]
        · simp [hall, hk]

theorem process_top_k_argument_spec_witness :
    process_top_k_argument "42" = .ok (some 42) :=
  (process_top_k_argument_spec "42").2.1 42 rfl (by decide)

/-- Claim C7: for every mapping and every `K` at least the number of
entries, the selector returns the same sequence as with the `None`
sentinel. -/
theorem find_top_packages_ge_len (stats : Dict) (K : Nat)
    (hK : stats.length ≤ K) :
    find_top_packages stats (some K) = find_top_packages stats none := by
  simp only [find_top_packages]
  congr 1
  exact popK_eq_of_le K _ _ (by simpa using hK) (le_refl _)

theorem find_top_packages_ge_len_witness :
    find_top_packages [("pkgX", 2), ("pkgY", 1)] (some 5) =
      find_top_packages [("pkgX", 2), ("pkgY", 1)] none :=
  find_top_packages_ge_len [("pkgX", 2), ("pkgY", 1)] 5 (by decide)

/-- Claim C8: the selector applied to the empty mapping returns the empty
sequence for every `K`, whether a number or the `None` sentinel. -/
theorem find_top_packages_empty (top_k : Option Nat) :
    find_top_packages [] top_k = [] := by
  cases top_k with
  | none => rfl
  | some k =>
    simp only [find_top_packages, List.map_nil]
    rw [popK_nil]
    rfl

/-- Claim C9: in the selector's output, any two entries with equal counts
appear in ascending lexicographic order of package name: the heap holds
`(-count, name)` tuples and each pop returns the minimum tuple, so among
equal counts the smallest name is emitted first. -/
theorem find_top_packages_tiebreak (stats : Dict) (top_k : Option Nat)
    (i j : Nat) (hi : i < (find_top_packages stats top_k).length)
    (hj : j < (find_top_packages stats top_k).length) (hij : i < j)
    (hcount : ((find_top_packages stats top_k).get ⟨i, hi⟩).2
            = ((find_top_packages stats top_k).get ⟨j, hj⟩).2) :
    ((find_top_packages stats top_k).get ⟨i, hi⟩).1
      ≤ ((find_top_packages stats top_k).get ⟨j, hj⟩).1 := by
  have hpw := find_top_packages_pairwise stats top_k
  rw [List.pairwise_iff_get] at hpw
  exact (hpw ⟨i, hi⟩ ⟨j, hj⟩ (Fin.mk_lt_mk.mpr hij)).2 hcount

theorem find_top_packages_tiebreak_witness :
    ((find_top_packages [("pkgB", 1), ("pkgA", 1)] none).get ⟨0, by decide⟩).1
      ≤ ((find_top_packages [("pkgB", 1), ("pkgA", 1)] none).get
        ⟨1, by decide⟩).1 :=
  find_top_packages_tiebreak [("pkgB", 1), ("pkgA", 1)] none 0 1 (by decide)
    (by decide) (by decide) (by decide)
